import Mathlib

/-!
Verification of the Tower of Hanoi core (`hanoi_core.py`) of HanoiVisualizer3D.

The embedding mirrors the two functions of the module:

* `generate_moves n source target aux` — the canonical recursive move
  generator; `n` is an arbitrary integer (`n ≤ 0` yields no moves).
* `validate_sequence n moves` — replays `moves` on three stacks keyed by the
  labels `"A"`, `"B"`, `"C"` (peg `A` initialized with `[n, n-1, ..., 1]`,
  bottom first, top = last element, exactly like the Python list built from
  `range(n, 0, -1)` that is popped and appended at its end) and returns the
  pair `(ok, errorMessage)`.

Disk sizes are natural numbers; the move type is a pair of strings, as in the
source, so that unknown rod labels are representable.
-/

/-- A single move `(from_rod, to_rod)`, as in the source. -/
abbrev Move := String × String

/-- The three rods that exist as keys of the validator's `rods` dict. -/
inductive Rod where
  | A
  | B
  | C
deriving DecidableEq, Repr

/-- The string label of a rod, as used in the Python dict keys. -/
def Rod.str : Rod → String
  | .A => "A"
  | .B => "B"
  | .C => "C"

/-- Parsing a string label into a rod; `none` models `x not in rods`. -/
def rodOf? (s : String) : Option Rod :=
  if s = "A" then some .A
  else if s = "B" then some .B
  else if s = "C" then some .C
  else none

/-- The validator's peg state: one stack of disk sizes per rod, bottom first
(the Python list order; the top of a stack is its last element). -/
structure Rods where
  A : List Nat
  B : List Nat
  C : List Nat
deriving DecidableEq, Repr

/-- Look up a rod's stack (`rods[x]`). -/
def Rods.get (r : Rods) : Rod → List Nat
  | .A => r.A
  | .B => r.B
  | .C => r.C

/-- Replace a rod's stack (mutation of `rods[x]`). -/
def Rods.set (r : Rods) : Rod → List Nat → Rods
  | .A, v => { r with A := v }
  | .B, v => { r with B := v }
  | .C, v => { r with C := v }

/-- `[n, n-1, ..., 1]`, the list `list(range(n, 0, -1))` for a natural `n`. -/
def rangeDown : Nat → List Nat
  | 0 => []
  | k + 1 => (k + 1) :: rangeDown k

/-- The validator's initial state:
`{"A": list(range(n, 0, -1)), "B": [], "C": []}`.  For `n ≤ 0` the Python
range is empty, which `Int.toNat` reproduces. -/
def initRods (n : Int) : Rods :=
  { A := rangeDown n.toNat, B := [], C := [] }

/-- One iteration of the validator's loop on move number `i` (1-based), with
exactly the source's three failure cases, in order: unknown rod label, pop
from an empty source rod, and putting a larger disk on a smaller one.  The
placement check happens after the pop, against the mutated state, as in the
Python code. -/
def applyMove (r : Rods) (i : Nat) (m : Move) : Except String Rods :=
  match rodOf? m.1, rodOf? m.2 with
  | some ra, some rb =>
    match (r.get ra).getLast? with
    | none => .error ("Move " ++ toString i ++ ": take from empty rod " ++ m.1)
    | some d =>
      let r1 := r.set ra (r.get ra).dropLast
      match (r1.get rb).getLast? with
      | some t =>
        if t < d then
          .error ("Move " ++ toString i ++ ": put larger (" ++ toString d ++
            ") on smaller (" ++ toString t ++ ") at " ++ m.2)
        else
          .ok (r1.set rb (r1.get rb ++ [d]))
      | none => .ok (r1.set rb (r1.get rb ++ [d]))
  | _, _ =>
    .error ("Move " ++ toString i ++ ": unknown rod label " ++ m.1 ++ "->" ++ m.2)

/-- The validator's loop: replay the moves in order, numbering them from `i`
(`enumerate(moves, 1)` starts at 1), stopping at the first failure. -/
def replay (r : Rods) (i : Nat) : List Move → Except String Rods
  | [] => .ok r
  | m :: ms =>
    match applyMove r i m with
    | .error e => .error e
    | .ok r' => replay r' (i + 1) ms

/-- `validate_sequence(n, moves)` of `hanoi_core.py`: `(True, None)` when all
moves replay legally from the initial state, `(False, message)` at the first
violation. -/
def validate_sequence (n : Int) (moves : List Move) : Bool × Option String :=
  match replay (initRods n) 1 moves with
  | .ok _ => (true, none)
  | .error e => (false, some e)

/-- `generate_moves(n, source, target, aux)` of `hanoi_core.py`: the standard
recursive decomposition; empty for `n ≤ 0`. -/
def generate_moves (n : Int) (source : String := "A") (target : String := "C")
    (aux : String := "B") : List Move :=
  if n ≤ 0 then []
  else if n = 1 then [(source, target)]
  else
    generate_moves (n - 1) source aux target ++ [(source, target)] ++
      generate_moves (n - 1) aux target source
termination_by n.toNat
decreasing_by all_goals omega

/-- Structural-recursion companion of `generate_moves` on naturals (the
`n == 1` branch of the source coincides with the general branch at `n = 1`,
so no special case is needed).  Linked to `generate_moves` by
`generate_moves_coe`. -/
def genN : Nat → String → String → String → List Move
  | 0, _, _, _ => []
  | n + 1, s, t, a => genN n s a t ++ [(s, t)] ++ genN n a t s

theorem generate_moves_coe (n : Nat) (s t a : String) :
    generate_moves (n : Int) s t a = genN n s t a := by
  induction n generalizing s t a with
  | zero => simp [generate_moves, genN]
  | succ k ih =>
    rw [generate_moves]
    rcases Nat.eq_zero_or_pos k with hk | hk
    · subst hk
      norm_num [genN]
    · have h1 : ¬ ((k + 1 : Nat) : Int) ≤ 0 := by omega
      have h2 : ¬ ((k + 1 : Nat) : Int) = 1 := by omega
      have h3 : ((k + 1 : Nat) : Int) - 1 = (k : Int) := by omega
      simp only [h1, h2, if_false, h3, ih]
      cases k with
      | zero => omega
      | succ m => rfl

theorem rodOf?_str (p : Rod) : rodOf? p.str = some p := by
  cases p <;> rfl

theorem Rods.get_set_same (r : Rods) (p : Rod) (v : List Nat) :
    (r.set p v).get p = v := by
  cases p <;> rfl

theorem Rods.get_set_ne (r : Rods) (p q : Rod) (v : List Nat) (h : q ≠ p) :
    (r.set p v).get q = r.get q := by
  cases p <;> cases q <;> first
    | rfl
    | exact absurd rfl h

theorem Rods.set_get_self (r : Rods) (p : Rod) : r.set p (r.get p) = r := by
  cases p <;> rfl

theorem Rods.set_set_same (r : Rods) (p : Rod) (u v : List Nat) :
    (r.set p u).set p v = r.set p v := by
  cases p <;> rfl

theorem Rods.ext_get (r₁ r₂ : Rods) (h : ∀ p, r₁.get p = r₂.get p) :
    r₁ = r₂ := by
  cases r₁
  cases r₂
  have hA := h .A
  have hB := h .B
  have hC := h .C
  simp only [Rods.get] at hA hB hC
  simp [hA, hB, hC]

theorem rod_cover (s t a p : Rod) (hst : s ≠ t) (hsa : s ≠ a) (hta : t ≠ a) :
    p = s ∨ p = t ∨ p = a := by
  cases s <;> cases t <;> cases a <;> cases p <;> simp_all

theorem mem_rangeDown (x k : Nat) : x ∈ rangeDown k ↔ 1 ≤ x ∧ x ≤ k := by
  induction k with
  | zero =>
    simp only [rangeDown, List.not_mem_nil, false_iff]
    omega
  | succ m ih =>
    simp only [rangeDown, List.mem_cons, ih]
    omega

theorem rangeDown_succ_concat (k : Nat) :
    rangeDown (k + 1) = [k + 1] ++ rangeDown k := rfl

theorem replay_append (ms₁ : List Move) (r : Rods) (i : Nat) (ms₂ : List Move)
    (r' : Rods) (h : replay r i ms₁ = .ok r') :
    replay r i (ms₁ ++ ms₂) = replay r' (i + ms₁.length) ms₂ := by
  induction ms₁ generalizing r i with
  | nil =>
    simp only [replay] at h
    cases h
    simp [replay]
  | cons m ms ih =>
    cases happ : applyMove r i m with
    | error e =>
      simp only [replay, happ] at h
      exact Except.noConfusion h
    | ok r1 =>
      simp only [List.cons_append, replay, happ] at h ⊢
      simp only [List.append_eq]
      rw [ih r1 (i + 1) h]
      congr 1
      simp only [List.length_cons]
      omega

/-- A move between two distinct rods succeeds and pushes the popped disk when
no disk on the destination is smaller than it. -/
theorem applyMove_push (r : Rods) (i : Nat) (s t : Rod) (d : Nat)
    (base : List Nat) (hts : t ≠ s) (hs : r.get s = base ++ [d])
    (ht : ∀ x, (r.get t).getLast? = some x → ¬ x < d) :
    applyMove r i (s.str, t.str) =
      .ok ((r.set s base).set t (r.get t ++ [d])) := by
  have hget : (r.set s base).get t = r.get t := r.get_set_ne s t base hts
  simp only [applyMove, rodOf?_str, hs, List.getLast?_concat,
    List.dropLast_concat, hget]
  cases hlast : (r.get t).getLast? with
  | none => rfl
  | some x =>
    simp [ht x hlast]

/-- The induction behind the generator/validator round trip: replaying
`genN n s t a` from any state whose rod `s` carries the disks `n, ..., 1` on
top of `base`, with every other disk in play larger than `n`, succeeds and
transfers those `n` disks onto rod `t`. -/
theorem replay_genN (n : Nat) :
    ∀ (s t a : Rod) (r : Rods) (i : Nat) (base : List Nat),
    s ≠ t → s ≠ a → t ≠ a →
    r.get s = base ++ rangeDown n →
    (∀ x ∈ base, n < x) →
    (∀ x ∈ r.get t, n < x) →
    (∀ x ∈ r.get a, n < x) →
    replay r i (genN n s.str t.str a.str) =
      .ok ((r.set s base).set t (r.get t ++ rangeDown n)) := by
  induction n with
  | zero =>
    intro s t a r i base hst hsa hta hs hbase ht ha
    simp only [rangeDown, List.append_nil] at hs ⊢
    subst hs
    rw [Rods.set_get_self]
    rw [Rods.set_get_self]
    rfl
  | succ n ih =>
    intro s t a r i base hst hsa hta hs hbase ht ha
    have hs1 : r.get s = (base ++ [n + 1]) ++ rangeDown n := by
      rw [hs, rangeDown_succ_concat, List.append_assoc]
    have step1 := ih s a t r i (base ++ [n + 1]) hsa hst (Ne.symm hta) hs1
      (by
        intro x hx
        rcases List.mem_append.mp hx with hx | hx
        · exact lt_trans (by omega) (hbase x hx)
        · simp only [List.mem_singleton] at hx
          omega)
      (fun x hx => lt_trans (by omega) (ha x hx))
      (fun x hx => lt_trans (by omega) (ht x hx))
    set r1 : Rods := (r.set s (base ++ [n + 1])).set a (r.get a ++ rangeDown n)
      with hr1
    have hr1s : r1.get s = base ++ [n + 1] := by
      rw [hr1, Rods.get_set_ne _ _ _ _ hsa, Rods.get_set_same]
    have hr1t : r1.get t = r.get t := by
      rw [hr1, Rods.get_set_ne _ _ _ _ hta, Rods.get_set_ne _ _ _ _ hst.symm]
    have step2 : applyMove r1 (i + (genN n s.str a.str t.str).length)
        (s.str, t.str) =
        .ok ((r1.set s base).set t (r.get t ++ [n + 1])) := by
      rw [← hr1t]
      refine applyMove_push r1 _ s t (n + 1) base hst.symm hr1s ?_
      intro x hx
      have hxt : x ∈ r.get t := by
        rw [hr1t] at hx
        exact List.mem_of_mem_getLast? (by simp [hx])
      have := ht x hxt
      omega
    set r2 : Rods := (r1.set s base).set t (r.get t ++ [n + 1]) with hr2
    have hr2a : r2.get a = r.get a ++ rangeDown n := by
      rw [hr2, Rods.get_set_ne _ _ _ _ (Ne.symm hta),
        Rods.get_set_ne _ _ _ _ (Ne.symm hsa), hr1, Rods.get_set_same]
    have hr2t : r2.get t = r.get t ++ [n + 1] := by
      rw [hr2, Rods.get_set_same]
    have hr2s : r2.get s = base := by
      rw [hr2, Rods.get_set_ne _ _ _ _ hst, Rods.get_set_same]
    have step3 := ih a t s r2 (i + (genN n s.str a.str t.str).length + 1)
      (r.get a) (Ne.symm hta) (Ne.symm hsa) (Ne.symm hst) hr2a
      (fun x hx => lt_trans (by omega) (ha x hx))
      (by
        intro x hx
        rw [hr2t] at hx
        rcases List.mem_append.mp hx with hx | hx
        · exact lt_trans (by omega) (ht x hx)
        · simp only [List.mem_singleton] at hx
          omega)
      (by
        intro x hx
        rw [hr2s] at hx
        exact lt_trans (by omega) (hbase x hx))
    have hsplit : genN (n + 1) s.str t.str a.str =
        genN n s.str a.str t.str ++
          ((s.str, t.str) :: genN n a.str t.str s.str) := by
      simp [genN]
    rw [hsplit, replay_append _ _ _ _ _ step1, replay]
    rw [step2]
    show replay r2 (i + (genN n s.str a.str t.str).length + 1)
        (genN n a.str t.str s.str) =
      Except.ok ((r.set s base).set t (r.get t ++ rangeDown (n + 1)))
    rw [step3]
    congr 1
    apply Rods.ext_get
    intro p
    rcases rod_cover s t a p hst hsa hta with hp | hp | hp
    · rw [hp]
      have hL : ((r2.set a (r.get a)).set t (r2.get t ++ rangeDown n)).get s
          = base := by
        rw [Rods.get_set_ne _ _ _ _ hst, Rods.get_set_ne _ _ _ _ hsa, hr2s]
      have hR : ((r.set s base).set t (r.get t ++ rangeDown (n + 1))).get s
          = base := by
        rw [Rods.get_set_ne _ _ _ _ hst, Rods.get_set_same]
      rw [hL, hR]
    · rw [hp]
      have hL : ((r2.set a (r.get a)).set t (r2.get t ++ rangeDown n)).get t
          = r.get t ++ rangeDown (n + 1) := by
        rw [Rods.get_set_same, hr2t, rangeDown_succ_concat, List.append_assoc]
      have hR : ((r.set s base).set t (r.get t ++ rangeDown (n + 1))).get t
          = r.get t ++ rangeDown (n + 1) := Rods.get_set_same _ _ _
      rw [hL, hR]
    · rw [hp]
      have hL : ((r2.set a (r.get a)).set t (r2.get t ++ rangeDown n)).get a
          = r.get a := by
        rw [Rods.get_set_ne _ _ _ _ (Ne.symm hta), Rods.get_set_same]
      have hR : ((r.set s base).set t (r.get t ++ rangeDown (n + 1))).get a
          = r.get a := by
        rw [Rods.get_set_ne _ _ _ _ (Ne.symm hta),
          Rods.get_set_ne _ _ _ _ (Ne.symm hsa)]
      rw [hL, hR]

/-- The generator/validator round trip holds for every integer `n`. -/
theorem validate_generate_ok (n : Int) :
    validate_sequence n (generate_moves n "A" "C" "B") = (true, none) := by
  rcases le_or_lt n 0 with hn | hn
  · have hgen : generate_moves n "A" "C" "B" = [] := by
      rw [generate_moves]
      simp [hn]
    rw [hgen]
    rfl
  · have hn' : n = (n.toNat : Int) := by omega
    have hrep := replay_genN n.toNat Rod.A Rod.C Rod.B (initRods n) 1 []
      (by decide) (by decide) (by decide)
      (by simp [initRods, Rods.get])
      (by intro x hx; exact absurd hx (List.not_mem_nil x))
      (by intro x hx; exact absurd hx (List.not_mem_nil x))
      (by intro x hx; exact absurd hx (List.not_mem_nil x))
    have hgen : generate_moves n "A" "C" "B" =
        genN n.toNat Rod.A.str Rod.C.str Rod.B.str := by
      conv_lhs => rw [hn']
      exact generate_moves_coe n.toNat "A" "C" "B"
    unfold validate_sequence
    rw [hgen, hrep]

/-- C1: for every `n` with `1 ≤ n ≤ 12`, replaying the generator's output
through the validator succeeds: `validate_sequence n (generate_moves n)`
returns `(true, none)` — the generated move sequence is always legal from
the initial configuration with all `n` disks on peg A. -/
theorem generated_moves_always_validate (n : Int) (h1 : 1 ≤ n) (h2 : n ≤ 12) :
    validate_sequence n (generate_moves n) = (true, none) :=
  validate_generate_ok n

theorem generated_moves_always_validate_witness :
    ((1 : Int) ≤ 3 ∧ (3 : Int) ≤ 12) ∧
      validate_sequence 3 (generate_moves 3) = (true, none) :=
  ⟨by decide,
    generated_moves_always_validate 3 (by decide) (by decide)⟩

theorem genN_length (n : Nat) (s t a : String) :
    (genN n s t a).length = 2 ^ n - 1 := by
  induction n generalizing s t a with
  | zero => rfl
  | succ k ih =>
    have h1 : 1 ≤ 2 ^ k := Nat.one_le_two_pow
    have h2 : 2 ^ (k + 1) = 2 * 2 ^ k := by rw [pow_succ]; ring
    simp only [genN, List.length_append, List.length_cons, List.length_nil, ih]
    omega

/-- C2: for every integer `n`, the number of moves returned by
`generate_moves n` equals `max 0 (2 ^ n - 1)`: exactly `2 ^ n - 1` moves for
`n ≥ 1` and zero moves for `n ≤ 0`, negative `n` included. -/
theorem generate_moves_length (n : Int) :
    ((generate_moves n).length : Int) = max 0 (2 ^ n.toNat - 1) := by
  rcases le_or_lt n 0 with hn | hn
  · have h0 : n.toNat = 0 := by omega
    have hgen : generate_moves n "A" "C" "B" = [] := by
      rw [generate_moves]
      simp [hn]
    rw [hgen, h0]
    simp
  · have hn' : n = (n.toNat : Int) := by omega
    have hgen : (generate_moves n "A" "C" "B").length = 2 ^ n.toNat - 1 := by
      conv_lhs => rw [hn', generate_moves_coe, genN_length]
    rw [hgen]
    have h1 : 1 ≤ 2 ^ n.toNat := Nat.one_le_two_pow
    have h2 : ((2 : Int) ^ n.toNat) = ((2 ^ n.toNat : Nat) : Int) := by
      push_cast
      ring
    have h3 : (0 : Int) ≤ ((2 ^ n.toNat : Nat) : Int) - 1 := by omega
    rw [h2, max_eq_right h3]
    omega

/-- C3: `generate_moves` satisfies the spec's recursive definition for every
choice of the three peg-label arguments: empty for `n ≤ 0`, the single move
`(source, target)` for `n = 1`, and the three-part concatenation through the
auxiliary peg for `n ≥ 2`. -/
theorem generate_moves_recursive (n : Int) (s t a : String) :
    (n ≤ 0 → generate_moves n s t a = []) ∧
    (n = 1 → generate_moves n s t a = [(s, t)]) ∧
    (2 ≤ n → generate_moves n s t a =
      generate_moves (n - 1) s a t ++ [(s, t)] ++
        generate_moves (n - 1) a t s) := by
  refine ⟨?_, ?_, ?_⟩
  · intro h
    rw [generate_moves]
    simp [h]
  · intro h
    subst h
    rw [generate_moves]
    norm_num
  · intro h
    conv_lhs => rw [generate_moves]
    have h1 : ¬ n ≤ 0 := by omega
    have h2 : ¬ n = 1 := by omega
    simp [h1, h2]

theorem generate_moves_recursive_witness :
    (2 : Int) ≤ 3 ∧ generate_moves 3 "A" "C" "B" =
      generate_moves 2 "A" "B" "C" ++ [("A", "C")] ++
        generate_moves 2 "B" "C" "A" :=
  ⟨by decide, (generate_moves_recursive 3 "A" "C" "B").2.2 (by decide)⟩

/-- Specification-side single replay step, following the spec's words: a move
`(a, b)` replays legally when both labels are among `{A, B, C}`, the source
peg is non-empty, and the popped disk is not placed onto a strictly smaller
top disk; the result is the configuration after the pop and push.  Compared
with `applyMove` by `applyMove_ok_iff_specApply`. -/
def specApply (r : Rods) (m : Move) : Option Rods :=
  match rodOf? m.1, rodOf? m.2 with
  | some ra, some rb =>
    match (r.get ra).getLast? with
    | none => none
    | some d =>
      let r1 := r.set ra (r.get ra).dropLast
      match (r1.get rb).getLast? with
      | some t => if t < d then none else some (r1.set rb (r1.get rb ++ [d]))
      | none => some (r1.set rb (r1.get rb ++ [d]))
  | _, _ => none

/-- Specification-side replay of a whole sequence: the resulting
configuration when every move replays legally in order, `none` otherwise. -/
def specReplay : Rods → List Move → Option Rods
  | r, [] => some r
  | r, m :: ms =>
    match specApply r m with
    | some r' => specReplay r' ms
    | none => none

/-- Specification-side legality of a move sequence from a configuration:
every move replays legally in order. -/
def SpecLegalFrom (r : Rods) (ms : List Move) : Bool :=
  (specReplay r ms).isSome

theorem applyMove_ok_iff_specApply (r : Rods) (i : Nat) (m : Move)
    (r' : Rods) :
    applyMove r i m = .ok r' ↔ specApply r m = some r' := by
  unfold applyMove specApply
  cases h1 : rodOf? m.1 with
  | none => simp
  | some ra =>
    cases h2 : rodOf? m.2 with
    | none => simp
    | some rb =>
      cases h3 : (r.get ra).getLast? with
      | none => simp [h3]
      | some d =>
        cases h4 : ((r.set ra (r.get ra).dropLast).get rb).getLast? with
        | none => simp [h3, h4]
        | some t =>
          by_cases h5 : t < d <;> simp [h3, h4, h5]

theorem specApply_none_iff (r : Rods) (i : Nat) (m : Move) :
    specApply r m = none ↔ ∃ e, applyMove r i m = .error e := by
  constructor
  · intro h
    cases ha : applyMove r i m with
    | error e => exact ⟨e, rfl⟩
    | ok r' =>
      rw [applyMove_ok_iff_specApply, h] at ha
      exact Option.noConfusion ha
  · rintro ⟨e, he⟩
    cases hs : specApply r m with
    | none => rfl
    | some r' =>
      rw [← applyMove_ok_iff_specApply r i, he] at hs
      exact Except.noConfusion hs

theorem replay_ok_iff_specReplay (ms : List Move) (r : Rods) (i : Nat)
    (r' : Rods) :
    replay r i ms = .ok r' ↔ specReplay r ms = some r' := by
  induction ms generalizing r i with
  | nil => simp [replay, specReplay]
  | cons m ms ih =>
    cases ha : applyMove r i m with
    | error e =>
      have hs : specApply r m = none := (specApply_none_iff r i m).mpr ⟨e, ha⟩
      simp [replay, specReplay, ha, hs]
    | ok r1 =>
      have hs : specApply r m = some r1 :=
        (applyMove_ok_iff_specApply r i m r1).mp ha
      simp only [replay, specReplay, ha, hs]
      exact ih r1 (i + 1)

/-- C4: `validate_sequence n moves` returns `(true, none)` exactly when every
move replays legally in order from the initial configuration; otherwise it
returns `(false, d)` with a non-`none` detail; and a failure is decided at
the first violating move — everything after it is irrelevant to the result. -/
theorem validate_sequence_iff_spec (n : Int) (moves : List Move) :
    (validate_sequence n moves = (true, none) ↔
      SpecLegalFrom (initRods n) moves = true) ∧
    (SpecLegalFrom (initRods n) moves = false →
      ∃ d, validate_sequence n moves = (false, some d)) ∧
    (∀ pre m post r, moves = pre ++ m :: post →
      replay (initRods n) 1 pre = .ok r → specApply r m = none →
      validate_sequence n moves = validate_sequence n (pre ++ [m])) := by
  refine ⟨?_, ?_, ?_⟩
  · unfold validate_sequence SpecLegalFrom
    cases hrep : replay (initRods n) 1 moves with
    | ok r' =>
      have hs : specReplay (initRods n) moves = some r' :=
        (replay_ok_iff_specReplay moves _ 1 r').mp hrep
      simp [hs]
    | error e =>
      constructor
      · intro h
        exact absurd h (by simp)
      · intro h
        rw [Option.isSome_iff_exists] at h
        obtain ⟨r', hr'⟩ := h
        rw [← replay_ok_iff_specReplay moves _ 1 r', hrep] at hr'
        exact Except.noConfusion hr'
  · intro h
    unfold validate_sequence
    cases hrep : replay (initRods n) 1 moves with
    | ok r' =>
      have hs : specReplay (initRods n) moves = some r' :=
        (replay_ok_iff_specReplay moves _ 1 r').mp hrep
      unfold SpecLegalFrom at h
      rw [hs] at h
      exact absurd h (by simp)
    | error e => exact ⟨e, rfl⟩
  · intro pre m post r hmoves hpre hnone
    obtain ⟨e, he⟩ := (specApply_none_iff r (1 + pre.length) m).mp hnone
    have h1 : replay (initRods n) 1 (pre ++ m :: post) = .error e := by
      rw [replay_append pre _ _ _ _ hpre]
      simp [replay, he]
    have h2 : replay (initRods n) 1 (pre ++ [m]) = .error e := by
      rw [replay_append pre _ _ _ _ hpre]
      simp [replay, he]
    rw [hmoves]
    unfold validate_sequence
    rw [h1, h2]

theorem validate_sequence_iff_spec_witness :
    validate_sequence 2 [("A", "C")] = (true, none) :=
  ((validate_sequence_iff_spec 2 [("A", "C")]).1).mpr (by decide)

/-- The multiset of all disks in play across the three rods. -/
def allDisks (r : Rods) : Multiset Nat :=
  (r.A : Multiset Nat) + (r.B : Multiset Nat) + (r.C : Multiset Nat)

/-- Invariant of configurations reachable by the validator's replay: the
disks in play are pairwise distinct and every rod's stack is strictly
decreasing from bottom to top. -/
def GoodState (r : Rods) : Prop :=
  (allDisks r).Nodup ∧ ∀ p, List.Chain' (· > ·) (r.get p)

theorem nodup_disjoint (r : Rods) (h : (allDisks r).Nodup) (p q : Rod)
    (hpq : p ≠ q) (x : Nat) (hxp : x ∈ r.get p) (hxq : x ∈ r.get q) :
    False := by
  rw [allDisks, Multiset.nodup_add] at h
  obtain ⟨hAB, hC, hdABC⟩ := h
  rw [Multiset.nodup_add] at hAB
  obtain ⟨hA, hB, hdAB⟩ := hAB
  cases p <;> cases q <;> simp only [Rods.get] at hxp hxq
  · exact absurd rfl hpq
  · exact Multiset.disjoint_left.mp hdAB (Multiset.mem_coe.mpr hxp)
      (Multiset.mem_coe.mpr hxq)
  · exact Multiset.disjoint_left.mp hdABC
      (Multiset.mem_add.mpr (Or.inl (Multiset.mem_coe.mpr hxp)))
      (Multiset.mem_coe.mpr hxq)
  · exact Multiset.disjoint_left.mp hdAB (Multiset.mem_coe.mpr hxq)
      (Multiset.mem_coe.mpr hxp)
  · exact absurd rfl hpq
  · exact Multiset.disjoint_left.mp hdABC
      (Multiset.mem_add.mpr (Or.inr (Multiset.mem_coe.mpr hxp)))
      (Multiset.mem_coe.mpr hxq)
  · exact Multiset.disjoint_left.mp hdABC
      (Multiset.mem_add.mpr (Or.inl (Multiset.mem_coe.mpr hxq)))
      (Multiset.mem_coe.mpr hxp)
  · exact Multiset.disjoint_left.mp hdABC
      (Multiset.mem_add.mpr (Or.inr (Multiset.mem_coe.mpr hxq)))
      (Multiset.mem_coe.mpr hxp)
  · exact absurd rfl hpq

theorem allDisks_move (r : Rods) (ra rb : Rod) (base : List Nat) (d : Nat)
    (hab : rb ≠ ra) (hra : r.get ra = base ++ [d]) :
    allDisks ((r.set ra base).set rb (r.get rb ++ [d])) = allDisks r := by
  cases ra <;> cases rb <;>
    first
      | exact absurd rfl hab
      | (simp only [Rods.get, Rods.set] at hra ⊢
         simp only [allDisks]
         rw [hra]
         simp [← Multiset.coe_add, add_comm, add_left_comm, add_assoc])

theorem push_good (r : Rods) (ra rb : Rod) (d : Nat)
    (hra : r.get ra = (r.get ra).dropLast ++ [d])
    (hcheck : ∀ t, ((r.set ra (r.get ra).dropLast).get rb).getLast? = some t →
      ¬ t < d)
    (hg : GoodState r) :
    GoodState ((r.set ra (r.get ra).dropLast).set rb
      ((r.set ra (r.get ra).dropLast).get rb ++ [d])) := by
  by_cases hab : rb = ra
  · subst hab
    have heq : (r.set rb (r.get rb).dropLast).set rb
        ((r.set rb (r.get rb).dropLast).get rb ++ [d]) = r := by
      rw [Rods.get_set_same, Rods.set_set_same, ← hra, Rods.set_get_self]
    rw [heq]
    exact hg
  · have hgetrb : (r.set ra (r.get ra).dropLast).get rb = r.get rb :=
      Rods.get_set_ne r ra rb _ hab
    rw [hgetrb]
    constructor
    · rw [allDisks_move r ra rb (r.get ra).dropLast d hab hra]
      exact hg.1
    · intro p
      by_cases hpb : p = rb
      · subst hpb
        rw [Rods.get_set_same]
        rw [List.chain'_append]
        refine ⟨hg.2 p, List.chain'_singleton d, ?_⟩
        intro x hx y hy
        simp only [List.head?_cons, Option.mem_def, Option.some.injEq] at hy
        subst hy
        rw [Option.mem_def] at hx
        have hxmem : x ∈ r.get p := List.mem_of_mem_getLast? (by simp [hx])
        have hxd : ¬ x < d := hcheck x (by rw [hgetrb]; exact hx)
        have hxne : x ≠ d := by
          intro hxeq
          subst hxeq
          exact nodup_disjoint r hg.1 p ra hab x hxmem
            (by
              rw [hra]
              exact List.mem_append_right _ (List.mem_singleton_self x))
        omega
      · by_cases hpa : p = ra
        · subst hpa
          rw [Rods.get_set_ne _ _ _ _ (fun h => hab h.symm), Rods.get_set_same]
          have hch := hg.2 p
          rw [hra, List.chain'_append] at hch
          exact hch.1
        · rw [Rods.get_set_ne _ _ _ _ hpb, Rods.get_set_ne _ _ _ _ hpa]
          exact hg.2 p

theorem applyMove_ok_good (r : Rods) (i : Nat) (m : Move) (r' : Rods)
    (hok : applyMove r i m = .ok r') (hg : GoodState r) : GoodState r' := by
  unfold applyMove at hok
  cases h1 : rodOf? m.1 with
  | none =>
    simp only [h1] at hok
    exact Except.noConfusion hok
  | some ra =>
    cases h2 : rodOf? m.2 with
    | none =>
      simp only [h1, h2] at hok
      exact Except.noConfusion hok
    | some rb =>
      simp only [h1, h2] at hok
      cases h3 : (r.get ra).getLast? with
      | none =>
        simp only [h3] at hok
        exact Except.noConfusion hok
      | some d =>
        simp only [h3] at hok
        have hra : r.get ra = (r.get ra).dropLast ++ [d] := by
          obtain ⟨ys, hys⟩ := List.getLast?_eq_some_iff.mp h3
          rw [hys, List.dropLast_concat]
        cases h4 : ((r.set ra (r.get ra).dropLast).get rb).getLast? with
        | none =>
          simp only [h4] at hok
          cases hok
          refine push_good r ra rb d hra ?_ hg
          intro t ht
          rw [h4] at ht
          exact Option.noConfusion ht
        | some t =>
          simp only [h4] at hok
          by_cases h5 : t < d
          · simp only [if_pos h5] at hok
            exact Except.noConfusion hok
          · simp only [if_neg h5] at hok
            cases hok
            refine push_good r ra rb d hra ?_ hg
            intro t' ht'
            rw [h4] at ht'
            cases ht'
            exact h5

theorem replay_ok_good (ms : List Move) (r : Rods) (i : Nat) (r' : Rods)
    (h : replay r i ms = .ok r') (hg : GoodState r) : GoodState r' := by
  induction ms generalizing r i with
  | nil =>
    simp only [replay] at h
    cases h
    exact hg
  | cons m ms ih =>
    cases ha : applyMove r i m with
    | error e =>
      simp only [replay, ha] at h
      exact Except.noConfusion h
    | ok r1 =>
      simp only [replay, ha] at h
      exact ih r1 (i + 1) h (applyMove_ok_good r i m r1 ha hg)

theorem rangeDown_nodup (k : Nat) : (rangeDown k).Nodup := by
  induction k with
  | zero => exact List.nodup_nil
  | succ m ih =>
    rw [rangeDown]
    refine List.nodup_cons.mpr ⟨?_, ih⟩
    rw [mem_rangeDown]
    omega

theorem rangeDown_chain (k : Nat) : List.Chain' (· > ·) (rangeDown k) := by
  induction k with
  | zero => exact List.chain'_nil
  | succ m ih =>
    rw [rangeDown, List.chain'_cons']
    refine ⟨?_, ih⟩
    intro y hy
    have hym : y ∈ rangeDown m := List.mem_of_mem_head? hy
    rw [mem_rangeDown] at hym
    omega

theorem good_initRods (n : Int) : GoodState (initRods n) := by
  constructor
  · have h : allDisks (initRods n) = (rangeDown n.toNat : Multiset Nat) := by
      simp [allDisks, initRods]
    rw [h]
    exact Multiset.coe_nodup.mpr (rangeDown_nodup n.toNat)
  · intro p
    cases p
    · exact rangeDown_chain n.toNat
    · exact List.chain'_nil
    · exact List.chain'_nil

/-- C5: after any prefix of moves that the validator replays without
reporting a failure, each of the three peg stacks is strictly decreasing in
disk size from bottom to top — the legal-configuration invariant is
preserved by every successfully applied move from the initial all-on-A
configuration. -/
theorem replay_stacks_strictly_decreasing (n : Int) (pre : List Move)
    (r : Rods) (h : replay (initRods n) 1 pre = Except.ok r) (p : Rod) :
    List.Chain' (· > ·) (r.get p) :=
  (replay_ok_good pre (initRods n) 1 r h (good_initRods n)).2 p

theorem replay_stacks_strictly_decreasing_witness :
    replay (initRods 2) 1 [("A", "C")] = Except.ok (Rods.mk [2] [] [1]) ∧
      List.Chain' (· > ·) ((Rods.mk [2] [] [1]).get Rod.C) :=
  ⟨rfl,
    replay_stacks_strictly_decreasing 2 [("A", "C")] (Rods.mk [2] [] [1])
      rfl Rod.C⟩

/-- C6: for `n = 2` and the moves `[("A","C"), ("A","C")]` the validator
returns `(false, d)` with a non-empty detail, rejecting the second move as
putting disk `2` onto peg `C` whose top is disk `1`. -/
theorem validate_rejects_larger_on_smaller :
    validate_sequence 2 [("A", "C"), ("A", "C")] =
      (false, some "Move 2: put larger (2) on smaller (1) at C") := by
  decide

/-- C7: both operations are deterministic pure functions — equal arguments
give equal generated sequences and equal validation results. -/
theorem hanoi_functions_deterministic (n₁ n₂ : Int)
    (s₁ s₂ t₁ t₂ a₁ a₂ : String) (ms₁ ms₂ : List Move) (hn : n₁ = n₂)
    (hs : s₁ = s₂) (ht : t₁ = t₂) (ha : a₁ = a₂) (hms : ms₁ = ms₂) :
    generate_moves n₁ s₁ t₁ a₁ = generate_moves n₂ s₂ t₂ a₂ ∧
      validate_sequence n₁ ms₁ = validate_sequence n₂ ms₂ := by
  subst hn
  subst hs
  subst ht
  subst ha
  subst hms
  exact ⟨rfl, rfl⟩

theorem hanoi_functions_deterministic_witness :
    generate_moves 2 "A" "C" "B" = generate_moves 2 "A" "C" "B" ∧
      validate_sequence 2 [("A", "C")] = validate_sequence 2 [("A", "C")] :=
  hanoi_functions_deterministic 2 2 "A" "A" "C" "C" "B" "B"
    [("A", "C")] [("A", "C")] rfl rfl rfl rfl rfl

/-- C8: a self-move `(X, X)` on one of the three rods is accepted by the
replay whenever rod `X` is non-empty in a configuration reached by the
validator, and it leaves the configuration exactly unchanged (the popped
disk is pushed back, the disk below the top being strictly larger). -/
theorem self_move_accepted_noop (n : Int) (pre : List Move) (r : Rods)
    (x : Rod) (i : Nat) (h : replay (initRods n) 1 pre = Except.ok r)
    (hne : r.get x ≠ []) :
    applyMove r i (x.str, x.str) = .ok r := by
  have hg := replay_ok_good pre (initRods n) 1 r h (good_initRods n)
  rcases (r.get x).eq_nil_or_concat with hnil | ⟨l', d, hl⟩
  · exact absurd hnil hne
  · rw [List.concat_eq_append] at hl
    have hchain := hg.2 x
    rw [hl] at hchain
    have hfinal : (r.set x l').set x (l' ++ [d]) = r := by
      rw [Rods.set_set_same, ← hl, Rods.set_get_self]
    cases hlast : l'.getLast? with
    | none =>
      simp only [applyMove, rodOf?_str, hl, List.getLast?_concat,
        List.dropLast_concat, Rods.get_set_same, hlast, hfinal]
    | some t =>
      have htd : t > d := by
        rw [List.chain'_append] at hchain
        exact hchain.2.2 t (by simp [hlast]) d (by simp)
      have hnot : ¬ t < d := by omega
      simp only [applyMove, rodOf?_str, hl, List.getLast?_concat,
        List.dropLast_concat, Rods.get_set_same, hlast, if_neg hnot, hfinal]

theorem self_move_accepted_noop_witness :
    replay (initRods 1) 1 [] = Except.ok (initRods 1) ∧
      (initRods 1).get Rod.A ≠ [] ∧
      applyMove (initRods 1) 1 (Rod.A.str, Rod.A.str) =
        Except.ok (initRods 1) :=
  ⟨rfl, by decide,
    self_move_accepted_noop 1 [] (initRods 1) Rod.A 1 rfl (by decide)⟩

/-- C9: the validator accepts the empty sequence for every `n`, and more
generally any sequence that replays without violation — it never requires
the final configuration to be the solved state. -/
theorem validate_empty_and_incomplete (n : Int) :
    validate_sequence n [] = (true, none) ∧
    ∀ moves r, replay (initRods n) 1 moves = Except.ok r →
      validate_sequence n moves = (true, none) := by
  constructor
  · rfl
  · intro moves r h
    unfold validate_sequence
    rw [h]

theorem validate_empty_and_incomplete_witness :
    validate_sequence 2 [] = (true, none) ∧
      validate_sequence 2 [("A", "B")] = (true, none) :=
  ⟨(validate_empty_and_incomplete 2).1,
    (validate_empty_and_incomplete 2).2 [("A", "B")] (Rods.mk [2] [1] [])
      rfl⟩

/-- C10: the validator is total over all integers `n`: for `n ≤ 0` the
initial stack built from `range(n, 0, -1)` is empty, so
`validate_sequence n moves` coincides with `validate_sequence 0 moves`;
negative `n` is silently accepted. -/
theorem validate_nonpos_eq_validate_zero (n : Int) (hn : n ≤ 0)
    (moves : List Move) :
    validate_sequence n moves = validate_sequence 0 moves := by
  have hinit : initRods n = initRods 0 := by
    unfold initRods
    have h0 : n.toNat = 0 := by omega
    rw [h0]
    rfl
  unfold validate_sequence
  rw [hinit]

theorem validate_nonpos_eq_validate_zero_witness :
    ((-3 : Int) ≤ 0) ∧
      validate_sequence (-3) [("A", "C")] = validate_sequence 0 [("A", "C")] :=
  ⟨by decide,
    validate_nonpos_eq_validate_zero (-3) (by decide) [("A", "C")]⟩
